import Mathlib

/-!
# Verification of the DNS message codec (`src/dns.rs`)

Shallow embedding of the DNS wire codec from `src/dns.rs` of the
`dns-resolver` repository, together with theorems settling the frozen
claims about it.

Modelling conventions:
* Byte buffers are `List Nat` (each element a byte value `< 256` in every
  concrete input; the operations are total over `Nat`).
* Rust's `Cursor<&[u8]>` is modelled by explicit position passing: a read
  returns `Option (value × newPosition)`, `none` being an `std::io::Error`.
  `read_exact` fails exactly when fewer bytes than requested remain, which
  is `position + n ≤ buffer.length` here.  A failed read's effect on the
  cursor is irrelevant because every failure aborts the whole decode.
* Rust `String`s are modelled by their UTF-8 byte sequences.  The source
  applies `String::from_utf8_lossy` to decoded label bytes; on the inputs
  the claims quantify over (labels that originate from valid UTF-8 `&str`
  data, or byte-level comparisons applied identically on both sides of an
  equation) the lossy conversion is the identity on bytes, so labels are
  kept as raw byte lists.
* The pointer-chasing loop of `unpack_domain_name` and the record loops of
  `DnsMessage::from_bytes` have no termination bound in the source (a
  pointer cycle hangs, as §9 of the spec notes); they are embedded with an
  explicit fuel parameter, `none` standing for both error and
  non-termination.  Claims about successful decodes quantify over the fuel.
-/

namespace DnsResolver

/-- Reads `n` bytes starting at `pos` (Rust `read_exact` into an `n`-byte
buffer): succeeds iff `pos + n ≤ buf.length`. -/
def readSlice (buf : List Nat) (pos n : Nat) : Option (List Nat) :=
  if pos + n ≤ buf.length then some ((buf.drop pos).take n) else none

/-- Reads a big-endian `u16` at `pos` (Rust `read_exact` of 2 bytes then
`u16::from_be_bytes`), returning the value and the new cursor position. -/
def readU16 (buf : List Nat) (pos : Nat) : Option (Nat × Nat) :=
  match buf[pos]?, buf[pos+1]? with
  | some b0, some b1 => some (b0 * 256 + b1, pos + 2)
  | _, _ => none

/-- Reads a big-endian `u32` at `pos` (Rust `read_exact` of 4 bytes then
`u32::from_be_bytes`). -/
def readU32 (buf : List Nat) (pos : Nat) : Option (Nat × Nat) :=
  match buf[pos]?, buf[pos+1]?, buf[pos+2]?, buf[pos+3]? with
  | some b0, some b1, some b2, some b3 =>
      some (((b0 * 256 + b1) * 256 + b2) * 256 + b3, pos + 4)
  | _, _, _, _ => none

/-- The `QueryType` enum of `src/dns.rs` (closed set A/AAAA/CNAME/MX/TXT). -/
inductive QueryType : Type
  | A
  | AAAA
  | CNAME
  | MX
  | TXT
  deriving DecidableEq, Repr

/-- `QueryType::try_from(u16)` from `src/dns.rs`: codes 1, 28, 5, 15, 16;
everything else is an error (`none`). -/
def QueryType.tryFrom (value : Nat) : Option QueryType :=
  match value with
  | 1 => some .A
  | 28 => some .AAAA
  | 5 => some .CNAME
  | 15 => some .MX
  | 16 => some .TXT
  | _ => none

/-- The `ResponseCode` enum of `src/dns.rs`. -/
inductive ResponseCode : Type
  | NoError
  | FormatError
  | ServerFailure
  | NameError
  | NotImplemented
  | Refused
  deriving DecidableEq, Repr

/-- The `DnsHeader` struct of `src/dns.rs`: six `u16` fields. -/
structure DnsHeader : Type where
  id : Nat
  flags : Nat
  question_count : Nat
  answer_count : Nat
  authority_count : Nat
  additional_count : Nat
  deriving DecidableEq, Repr

/-- `u16::to_be_bytes`: the two big-endian bytes of a 16-bit value. -/
def be16 (v : Nat) : List Nat := [v / 256 % 256, v % 256]

/-- `DnsHeader::pack` from `src/dns.rs`: appends the six fields, each as two
big-endian bytes, to `buffer`. -/
def DnsHeader.pack (h : DnsHeader) (buffer : List Nat) : List Nat :=
  buffer ++ be16 h.id ++ be16 h.flags ++ be16 h.question_count ++
    be16 h.answer_count ++ be16 h.authority_count ++ be16 h.additional_count

/-- `DnsHeader::from_bytes` from `src/dns.rs`: six big-endian `u16` reads. -/
def DnsHeader.from_bytes (buf : List Nat) (pos : Nat) :
    Option (DnsHeader × Nat) := do
  let (id, p1) ← readU16 buf pos
  let (flags, p2) ← readU16 buf p1
  let (qc, p3) ← readU16 buf p2
  let (anc, p4) ← readU16 buf p3
  let (auc, p5) ← readU16 buf p4
  let (adc, p6) ← readU16 buf p5
  some (⟨id, flags, qc, anc, auc, adc⟩, p6)

/-- `DnsHeader::get_response_code` from `src/dns.rs`: match on
`flags & 0x000F`, unknown values defaulting to `ServerFailure`. -/
def DnsHeader.get_response_code (h : DnsHeader) : ResponseCode :=
  match h.flags &&& 15 with
  | 0 => .NoError
  | 1 => .FormatError
  | 2 => .ServerFailure
  | 3 => .NameError
  | 4 => .NotImplemented
  | 5 => .Refused
  | _ => .ServerFailure

/-- True iff a length byte has its top two bits set (`len & 0xC0 == 0xC0`),
marking a 2-byte compression pointer. -/
def isPointer (len : Nat) : Bool := len &&& 192 == 192

/-- The loop of `unpack_domain_name` from `src/dns.rs`, state for state:
`parts` accumulates decoded labels, `jumped` records whether a pointer was
followed, `jumpPos` the cursor position saved right after the first pointer.
The first argument after `buf` is fuel (the Rust loop is unbounded and can
hang on a pointer cycle); `none` covers both I/O error and fuel exhaustion.
On the zero length byte it returns the accumulated labels and the final
cursor position (the saved `jumpPos` if any jump happened, otherwise the
position just past the zero byte). -/
def unpackAux (buf : List Nat) :
    Nat → Nat → Bool → Nat → List (List Nat) → Option (List (List Nat) × Nat)
  | 0, _, _, _, _ => none
  | fuel+1, pos, jumped, jumpPos, parts =>
    match buf[pos]? with
    | none => none
    | some len =>
      if isPointer len then
        -- `jump_pos = cursor.position() + 1` is taken after the length byte
        -- was read, i.e. it is `pos + 2`, and only on the first pointer.
        let jumpPos' := if jumped then jumpPos else pos + 2
        match buf[pos+1]? with
        | none => none
        | some b =>
          unpackAux buf fuel (((len &&& 63) <<< 8) ||| b) true jumpPos' parts
      else if len = 0 then
        some (parts, if jumped then jumpPos else pos + 1)
      else
        match readSlice buf (pos+1) len with
        | none => none
        | some lab => unpackAux buf fuel (pos+1+len) jumped jumpPos (parts ++ [lab])

/-- `unpack_domain_name` from `src/dns.rs` (with fuel): returns the decoded
labels (each the raw bytes of one label, joined with `"."` by the source to
form the returned `String`) and the final cursor position. -/
def unpack_domain_name (fuel : Nat) (buf : List Nat) (pos : Nat) :
    Option (List (List Nat) × Nat) :=
  unpackAux buf fuel pos false 0 []

/-- Modelled from the spec (C1 reference): the transitive expansion of a
name, ignoring cursor bookkeeping — labels in order, following every
compression pointer to its target. -/
def specLabels (buf : List Nat) : Nat → Nat → Option (List (List Nat))
  | 0, _ => none
  | fuel+1, pos =>
    match buf[pos]? with
    | none => none
    | some len =>
      if isPointer len then
        match buf[pos+1]? with
        | none => none
        | some b => specLabels buf fuel (((len &&& 63) <<< 8) ||| b)
      else if len = 0 then
        some []
      else
        match readSlice buf (pos+1) len with
        | none => none
        | some lab =>
          match specLabels buf fuel (pos+1+len) with
          | none => none
          | some rest => some (lab :: rest)

/-- Modelled from the spec (C1 reference, following the claim's words): the
decoded name is the labels read before the first pointer followed by the
transitive expansion at the first pointer's target, and the final cursor is
2 bytes past the first pointer byte; with no pointer at all, the labels up
to the terminating zero byte and the position just after that zero byte. -/
def specName (buf : List Nat) : Nat → Nat → Option (List (List Nat) × Nat)
  | 0, _ => none
  | fuel+1, pos =>
    match buf[pos]? with
    | none => none
    | some len =>
      if isPointer len then
        match buf[pos+1]? with
        | none => none
        | some b =>
          match specLabels buf fuel (((len &&& 63) <<< 8) ||| b) with
          | none => none
          | some ls => some (ls, pos + 2)
      else if len = 0 then
        some ([], pos + 1)
      else
        match readSlice buf (pos+1) len with
        | none => none
        | some lab =>
          match specName buf fuel (pos+1+len) with
          | none => none
          | some (rest, fin) => some (lab :: rest, fin)

/-- `str::split('.')` at the byte level: splits on byte 46, never empty as a
list of labels (the empty input yields one empty label, as in Rust). -/
def splitOnDot : List Nat → List (List Nat)
  | [] => [[]]
  | c :: rest =>
    if c = 46 then [] :: splitOnDot rest
    else
      match splitOnDot rest with
      | [] => [[c]]
      | l :: ls => (c :: l) :: ls

/-- The wire encoding of one label: its length byte then its bytes. -/
def encLabel (l : List Nat) : List Nat := l.length :: l

/-- The wire encoding of a label sequence (without the final zero byte). -/
def encLabels (ls : List (List Nat)) : List Nat := (ls.map encLabel).flatten

/-- The loop of `pack_domain_name` from `src/dns.rs`: appends each label's
length byte and bytes to `buffer`; on the first label longer than 63 bytes
it stops with an error.  The error value carries the buffer contents at the
moment of failure (the Rust `&mut Vec<u8>` retains exactly those bytes, the
Rust error value itself being only a message string). -/
def packLabels (buffer : List Nat) : List (List Nat) → Except (List Nat) (List Nat)
  | [] => .ok (buffer ++ [0])
  | l :: ls =>
    if l.length > 63 then .error buffer
    else packLabels (buffer ++ encLabel l) ls

/-- `pack_domain_name` from `src/dns.rs`: split the name on `'.'`, append
each label length-prefixed, then the terminating zero byte. -/
def pack_domain_name (buffer : List Nat) (domain : List Nat) :
    Except (List Nat) (List Nat) :=
  packLabels buffer (splitOnDot domain)

/-- `parts.join(".")` at the byte level. -/
def joinDots : List (List Nat) → List Nat
  | [] => []
  | [l] => l
  | l :: l' :: ls => l ++ 46 :: joinDots (l' :: ls)

/-- The `DnsQuestion` struct of `src/dns.rs`; `name` is the byte sequence of
the dot-joined name string. -/
structure DnsQuestion : Type where
  name : List Nat
  qtype : QueryType
  qclass : Nat
  deriving DecidableEq, Repr

/-- `DnsQuestion::from_bytes` from `src/dns.rs`: name, then a type code that
must be in the closed `QueryType` enum (anything else is an error), then the
class. -/
def DnsQuestion.from_bytes (fuel : Nat) (buf : List Nat) (pos : Nat) :
    Option (DnsQuestion × Nat) := do
  let (parts, p1) ← unpack_domain_name fuel buf pos
  let (qtypeVal, p2) ← readU16 buf p1
  let qtype ← QueryType.tryFrom qtypeVal
  let (qclass, p3) ← readU16 buf p2
  some (⟨joinDots parts, qtype, qclass⟩, p3)

/-- The `RData` enum of `src/dns.rs`.  Addresses are kept as their raw
bytes (4 for `A`, 16 for `AAAA`); names and text as byte sequences. -/
inductive RData : Type
  | A (addr : List Nat)
  | AAAA (addr : List Nat)
  | CNAME (name : List Nat)
  | MX (preference : Nat) (exchange : List Nat)
  | TXT (text : List Nat)
  | Other (rtype : Nat) (data : List Nat)
  deriving DecidableEq, Repr

/-- The `ResourceRecord` struct of `src/dns.rs`. -/
structure ResourceRecord : Type where
  name : List Nat
  rtype : QueryType
  rclass : Nat
  ttl : Nat
  data : RData
  deriving DecidableEq, Repr

/-- The TXT branch loop of `ResourceRecord::from_bytes`: while the cursor is
before the RDATA end offset, read one length byte then that many bytes,
accumulating everything into one byte sequence. -/
def txtChunks (buf : List Nat) (dataEnd : Nat) (pos : Nat) : Option (List Nat) :=
  if _h : pos < dataEnd then
    match buf[pos]? with
    | none => none
    | some len =>
      match readSlice buf (pos+1) len with
      | none => none
      | some chunk =>
        match txtChunks buf dataEnd (pos + 1 + len) with
        | none => none
        | some rest => some (chunk ++ rest)
  else
    some []
  termination_by dataEnd - pos
  decreasing_by omega

/-- The per-type RDATA dispatch of `ResourceRecord::from_bytes` (the `match
rtype` expression of `src/dns.rs`), producing the `RData` payload. -/
def readRData (fuel : Nat) (buf : List Nat) (rtypeVal p5 dataLen : Nat) :
    Option RData :=
  match QueryType.tryFrom rtypeVal with
  | some .A => (readSlice buf p5 4).map RData.A
  | some .AAAA => (readSlice buf p5 16).map RData.AAAA
  | some .CNAME =>
    match unpack_domain_name fuel buf p5 with
    | none => none
    | some (cs, _) => some (RData.CNAME (joinDots cs))
  | some .MX =>
    match readU16 buf p5 with
    | none => none
    | some (pref, q1) =>
      match unpack_domain_name fuel buf q1 with
      | none => none
      | some (es, _) => some (RData.MX pref (joinDots es))
  | some .TXT => (txtChunks buf (p5 + dataLen) p5).map RData.TXT
  | none => (readSlice buf p5 dataLen).map (RData.Other rtypeVal)

/-- `ResourceRecord::from_bytes` from `src/dns.rs`: owner name, type code,
class, TTL, RDATA length; per-type RDATA dispatch (raw fallback for an
unrecognized code); the cursor is then forced to the RDATA end offset
`p5 + dataLen` no matter what the per-type branch consumed, and an
unrecognized type code falls back to `QueryType::A` for the `rtype` field
(`rtype.unwrap_or(QueryType::A)`). -/
def ResourceRecord.from_bytes (fuel : Nat) (buf : List Nat) (pos : Nat) :
    Option (ResourceRecord × Nat) := do
  let (parts, p1) ← unpack_domain_name fuel buf pos
  let (rtypeVal, p2) ← readU16 buf p1
  let (rclass, p3) ← readU16 buf p2
  let (ttl, p4) ← readU32 buf p3
  let (dataLen, p5) ← readU16 buf p4
  let d ← readRData fuel buf rtypeVal p5 dataLen
  some (⟨joinDots parts, (QueryType.tryFrom rtypeVal).getD .A,
         rclass, ttl, d⟩, p5 + dataLen)

/-- The `DnsMessage` struct of `src/dns.rs`. -/
structure DnsMessage : Type where
  header : DnsHeader
  questions : List DnsQuestion
  answers : List ResourceRecord
  authorities : List ResourceRecord
  additionals : List ResourceRecord
  deriving DecidableEq, Repr

/-- Runs a section parser `n` times in sequence, as the
`for _ in 0..count { push(parse?) }` loops of `DnsMessage::from_bytes`. -/
def parseN {α : Type} (step : Nat → Option (α × Nat)) :
    Nat → Nat → Option (List α × Nat)
  | 0, pos => some ([], pos)
  | n+1, pos => do
    let (a, p1) ← step pos
    let (rest, p2) ← parseN step n p1
    some (a :: rest, p2)

/-- `DnsMessage::from_bytes` from `src/dns.rs`: header first, then exactly
`question_count` questions, `answer_count` answers, `authority_count`
authority records and `additional_count` additional records, in that order;
the final cursor position is dropped (trailing bytes are never checked). -/
def DnsMessage.from_bytes (fuel : Nat) (buf : List Nat) : Option DnsMessage := do
  let (header, p0) ← DnsHeader.from_bytes buf 0
  let (questions, p1) ← parseN (DnsQuestion.from_bytes fuel buf) header.question_count p0
  let (answers, p2) ← parseN (ResourceRecord.from_bytes fuel buf) header.answer_count p1
  let (authorities, p3) ← parseN (ResourceRecord.from_bytes fuel buf) header.authority_count p2
  let (additionals, _) ← parseN (ResourceRecord.from_bytes fuel buf) header.additional_count p3
  some ⟨header, questions, answers, authorities, additionals⟩

/-! ## Helper lemmas -/

theorem getElem?_some_lt {buf : List Nat} {pos b : Nat}
    (h : buf[pos]? = some b) : pos < buf.length := by
  by_contra hc
  rw [List.getElem?_eq_none (by omega)] at h
  exact Option.noConfusion h

theorem readU16_bound {buf : List Nat} {pos v q : Nat}
    (h : readU16 buf pos = some (v, q)) :
    q = pos + 2 ∧ pos + 2 ≤ buf.length := by
  unfold readU16 at h
  cases h0 : buf[pos]? <;> rw [h0] at h
  · exact Option.noConfusion h
  cases h1 : buf[pos+1]? <;> rw [h1] at h
  · exact Option.noConfusion h
  have := getElem?_some_lt h1
  simp only [Option.some.injEq, Prod.mk.injEq] at h
  exact ⟨h.2.symm, by omega⟩

theorem readU32_bound {buf : List Nat} {pos v q : Nat}
    (h : readU32 buf pos = some (v, q)) :
    q = pos + 4 ∧ pos + 4 ≤ buf.length := by
  unfold readU32 at h
  cases h0 : buf[pos]? <;> rw [h0] at h
  · exact Option.noConfusion h
  cases h1 : buf[pos+1]? <;> rw [h1] at h
  · exact Option.noConfusion h
  cases h2 : buf[pos+2]? <;> rw [h2] at h
  · exact Option.noConfusion h
  cases h3 : buf[pos+3]? <;> rw [h3] at h
  · exact Option.noConfusion h
  have := getElem?_some_lt h3
  simp only [Option.some.injEq, Prod.mk.injEq] at h
  exact ⟨h.2.symm, by omega⟩

/-! ## Claim C5 -/

/-- Modelled from the spec (C5 reference): the response-code mapping exactly
as the claim words it — 0 NoError, 1 FormatError, 2 ServerFailure,
3 NameError, 4 NotImplemented, 5 Refused, and every other low-nibble value
(6 through 15) ServerFailure. -/
def specResponseCode (n : Nat) : ResponseCode :=
  if n = 0 then .NoError
  else if n = 1 then .FormatError
  else if n = 2 then .ServerFailure
  else if n = 3 then .NameError
  else if n = 4 then .NotImplemented
  else if n = 5 then .Refused
  else .ServerFailure

/-- Claim C5: for every 16-bit flags value, `get_response_code` is
determined solely by bits 0-3 of `flags` (the value modulo 16), following
the claimed code table with every low nibble from 6 through 15 mapping to
`ServerFailure`; in particular flags `0x8003` yields `NameError` and
`0x8182` yields `ServerFailure`. -/
theorem C5_response_code_extraction :
    (∀ flags : Nat,
      DnsHeader.get_response_code ⟨0, flags, 0, 0, 0, 0⟩ =
        specResponseCode (flags % 16)) ∧
    DnsHeader.get_response_code ⟨0, 0x8003, 0, 0, 0, 0⟩ = .NameError ∧
    DnsHeader.get_response_code ⟨0, 0x8182, 0, 0, 0, 0⟩ = .ServerFailure := by
  refine ⟨fun flags => ?_, by decide, by decide⟩
  have hand : flags &&& 15 = flags % 16 := by
    have h := Nat.and_pow_two_sub_one_eq_mod flags 4
    norm_num at h
    exact h
  have hlt : flags % 16 < 16 := Nat.mod_lt _ (by omega)
  unfold DnsHeader.get_response_code specResponseCode
  dsimp only
  rw [hand]
  interval_cases h : flags % 16 <;> rfl

/-! ## Claim C8 -/

theorem header_from_bytes_bound {buf : List Nat} {pos : Nat}
    {h : DnsHeader} {q : Nat}
    (hs : DnsHeader.from_bytes buf pos = some (h, q)) :
    q = pos + 12 ∧ pos + 12 ≤ buf.length := by
  simp only [DnsHeader.from_bytes, Option.bind_eq_bind, Option.bind_eq_some] at hs
  obtain ⟨⟨v1, p1⟩, e1, ⟨v2, p2⟩, e2, ⟨v3, p3⟩, e3, ⟨v4, p4⟩, e4,
    ⟨v5, p5⟩, e5, ⟨v6, p6⟩, e6, hfin⟩ := hs
  obtain ⟨b1, _⟩ := readU16_bound e1
  obtain ⟨b2, _⟩ := readU16_bound e2
  obtain ⟨b3, _⟩ := readU16_bound e3
  obtain ⟨b4, _⟩ := readU16_bound e4
  obtain ⟨b5, _⟩ := readU16_bound e5
  obtain ⟨b6, hb6⟩ := readU16_bound e6
  simp only [Option.some.injEq, Prod.mk.injEq] at hfin
  omega

/-- Claim C8: `DnsHeader::pack` appends exactly 12 bytes (the six fields in
order, big-endian); `DnsHeader::from_bytes` on that 12-byte output
reproduces all six fields and advances the cursor by 12; and `from_bytes`
fails whenever fewer than 12 bytes remain. -/
theorem C8_header_roundtrip (h : DnsHeader)
    (h1 : h.id < 65536) (h2 : h.flags < 65536)
    (h3 : h.question_count < 65536) (h4 : h.answer_count < 65536)
    (h5 : h.authority_count < 65536) (h6 : h.additional_count < 65536) :
    (∀ buffer : List Nat, (h.pack buffer).length = buffer.length + 12) ∧
    DnsHeader.from_bytes (h.pack []) 0 = some (h, 12) ∧
    (∀ (buf : List Nat) (pos : Nat), buf.length < pos + 12 →
      DnsHeader.from_bytes buf pos = none) := by
  refine ⟨?_, ?_, ?_⟩
  · intro buffer
    simp [DnsHeader.pack, be16]
  · obtain ⟨a, b, c, d, e, f⟩ := h
    dsimp only at h1 h2 h3 h4 h5 h6
    simp only [DnsHeader.pack, be16, List.nil_append, List.cons_append]
    simp [DnsHeader.from_bytes, readU16]
    omega
  · intro buf pos hlen
    cases hs : DnsHeader.from_bytes buf pos with
    | none => rfl
    | some r =>
      obtain ⟨hd, q⟩ := r
      have := (header_from_bytes_bound hs).2
      omega

/-- Witness for C8 at a concrete header with all six fields distinct. -/
theorem C8_header_roundtrip_witness :
    DnsHeader.from_bytes
      (DnsHeader.pack ⟨4660, 33152, 1, 2, 3, 65535⟩ []) 0 =
      some (⟨4660, 33152, 1, 2, 3, 65535⟩, 12) :=
  (C8_header_roundtrip ⟨4660, 33152, 1, 2, 3, 65535⟩
    (by decide) (by decide) (by decide) (by decide) (by decide)
    (by decide)).2.1

/-! ## Claim C1 -/
theorem unpackAux_to_spec (buf : List Nat) :
    ∀ fuel pos acc,
      (∀ jp ps fin, unpackAux buf fuel pos false jp acc = some (ps, fin) →
        ∃ ls, specName buf fuel pos = some (ls, fin) ∧ ps = acc ++ ls) ∧
      (∀ jp ps fin, unpackAux buf fuel pos true jp acc = some (ps, fin) →
        ∃ ls, specLabels buf fuel pos = some ls ∧ ps = acc ++ ls ∧ fin = jp) := by
  intro fuel
  induction fuel with
  | zero =>
    intro pos acc
    constructor <;> intro jp ps fin h <;> simp [unpackAux] at h
  | succ f ih =>
    intro pos acc
    constructor
    · intro jp ps fin h
      cases h0 : buf[pos]? with
      | none => simp [unpackAux, h0] at h
      | some len =>
        simp only [unpackAux, h0] at h
        by_cases hp : isPointer len
        · simp only [hp, if_true, Bool.false_eq_true, if_false] at h
          cases h1 : buf[pos+1]? with
          | none => simp [h1] at h
          | some b =>
            simp only [h1] at h
            obtain ⟨ls, hspec, hps, hfin⟩ := (ih _ acc).2 (pos+2) ps fin h
            refine ⟨ls, ?_, hps⟩
            simp [specName, h0, hp, h1, hspec, hfin]
        · simp only [hp, if_false, Bool.false_eq_true] at h
          by_cases hz : len = 0
          · simp only [hz, if_true, Bool.false_eq_true, if_false] at h
            simp only [Option.some.injEq, Prod.mk.injEq] at h
            refine ⟨[], ?_, by simp [h.1.symm]⟩
            simp [specName, h0, hp, hz, h.2.symm, isPointer]
          · simp only [hz, if_false] at h
            cases h2 : readSlice buf (pos+1) len with
            | none => simp [h2] at h
            | some lab =>
              simp only [h2] at h
              obtain ⟨ls, hspec, hps⟩ := (ih _ (acc ++ [lab])).1 jp ps fin h
              refine ⟨lab :: ls, ?_, by simp [hps]⟩
              simp [specName, h0, hp, hz, h2, hspec]
    · intro jp ps fin h
      cases h0 : buf[pos]? with
      | none => simp [unpackAux, h0] at h
      | some len =>
        simp only [unpackAux, h0] at h
        by_cases hp : isPointer len
        · simp only [hp, if_true] at h
          cases h1 : buf[pos+1]? with
          | none => simp [h1] at h
          | some b =>
            simp only [h1] at h
            obtain ⟨ls, hspec, hps, hfin⟩ := (ih _ acc).2 jp ps fin h
            refine ⟨ls, ?_, hps, hfin⟩
            simp [specLabels, h0, hp, h1, hspec]
        · simp only [hp, if_false, Bool.false_eq_true] at h
          by_cases hz : len = 0
          · simp only [hz, if_true] at h
            simp only [Option.some.injEq, Prod.mk.injEq] at h
            refine ⟨[], ?_, by simp [h.1.symm], h.2.symm⟩
            simp [specLabels, h0, hp, hz, isPointer]
          · simp only [hz, if_false] at h
            cases h2 : readSlice buf (pos+1) len with
            | none => simp [h2] at h
            | some lab =>
              simp only [h2] at h
              obtain ⟨ls, hspec, hps, hfin⟩ := (ih _ (acc ++ [lab])).2 jp ps fin h
              refine ⟨lab :: ls, ?_, by simp [hps], hfin⟩
              simp [specLabels, h0, hp, hz, h2, hspec]

/-- Claim C1: whenever `unpack_domain_name` succeeds, its decoded labels are
the fully expanded name per the spec reference `specName` (labels before the
first pointer, then the transitive expansion at each pointer target), and
its final cursor position is 2 bytes past the first pointer byte when a
pointer occurs (unchanged by chained pointers) or just past the terminating
zero byte when none does -- `specName` returns exactly that position. -/
theorem C1_pointer_expansion_and_restore : ∀ fuel buf pos ps fin,
    unpack_domain_name fuel buf pos = some (ps, fin) →
    specName buf fuel pos = some (ps, fin) := by
  intro fuel buf pos ps fin h
  obtain ⟨ls, hs, hps⟩ := (unpackAux_to_spec buf fuel pos []).1 0 ps fin h
  subst hps
  simpa using hs

/-- A buffer exercising chained compression: `com` at offset 0,
`example` + pointer to offset 0 at offset 5, `f` + pointer to offset 5 at
offset 15. -/
def chainBuf : List Nat :=
  [3, 99, 111, 109, 0,
   7, 101, 120, 97, 109, 112, 108, 101, 192, 0,
   1, 102, 192, 5]

/-- Witness for C1: decoding `chainBuf` at offset 15 follows the pointer
chain, expands to `f.example.com`, and finishes 2 bytes past the first
pointer byte (position 19), as `specName` states. -/
theorem C1_pointer_expansion_and_restore_witness :
    specName chainBuf 20 15 =
      some ([[102], [101, 120, 97, 109, 112, 108, 101], [99, 111, 109]], 19) :=
  C1_pointer_expansion_and_restore 20 chainBuf 15
    [[102], [101, 120, 97, 109, 112, 108, 101], [99, 111, 109]] 19 (by decide)

/-! ## Claim C6 -/
theorem packLabels_ok : ∀ (ls : List (List Nat)) (buffer : List Nat),
    (∀ l ∈ ls, l.length ≤ 63) →
    packLabels buffer ls = .ok (buffer ++ encLabels ls ++ [0]) := by
  intro ls
  induction ls with
  | nil => intro buffer _; simp [packLabels, encLabels]
  | cons l ls ih =>
    intro buffer hle
    have hl : l.length ≤ 63 := hle l (by simp)
    have hrest : ∀ x ∈ ls, x.length ≤ 63 := fun x hx => hle x (by simp [hx])
    simp only [packLabels, if_neg (by omega : ¬ l.length > 63)]
    rw [ih _ hrest]
    simp [encLabels, encLabel, List.append_assoc]

theorem packLabels_error_shape : ∀ (ls : List (List Nat)) (buffer e : List Nat),
    packLabels buffer ls = .error e →
    ∃ pre bad suf, ls = pre ++ bad :: suf ∧ (∀ l ∈ pre, l.length ≤ 63) ∧
      63 < bad.length ∧ e = buffer ++ encLabels pre := by
  intro ls
  induction ls with
  | nil => intro buffer e h; simp [packLabels] at h
  | cons l ls ih =>
    intro buffer e h
    by_cases hl : l.length > 63
    · simp only [packLabels, if_pos hl, Except.error.injEq] at h
      exact ⟨[], l, ls, rfl, by simp, hl, by simp [encLabels, h.symm]⟩
    · simp only [packLabels, if_neg hl] at h
      obtain ⟨pre, bad, suf, hsplit, hpre, hbad, he⟩ := ih _ _ h
      refine ⟨l :: pre, bad, suf, by simp [hsplit], ?_, hbad, ?_⟩
      · intro x hx
        rcases List.mem_cons.mp hx with rfl | hx
        · omega
        · exact hpre x hx
      · simp [he, encLabels, encLabel, List.append_assoc]

theorem packLabels_error_of_long : ∀ (ls : List (List Nat)) (buffer : List Nat),
    (∃ l ∈ ls, 63 < l.length) → ∃ e, packLabels buffer ls = .error e := by
  intro ls
  induction ls with
  | nil => intro buffer h; simp at h
  | cons l ls ih =>
    intro buffer h
    by_cases hl : l.length > 63
    · exact ⟨buffer, by simp [packLabels, if_pos hl]⟩
    · obtain ⟨x, hx, hxl⟩ := h
      rcases List.mem_cons.mp hx with rfl | hx
      · omega
      · obtain ⟨e, he⟩ := ih (buffer ++ encLabel l) ⟨x, hx, hxl⟩
        exact ⟨e, by simp [packLabels, if_neg hl, he]⟩

/-- Claim C6: `pack_domain_name` fails exactly when some dot-separated label
exceeds 63 bytes; on success the buffer gains every length-prefixed label
and the terminator, and on failure the buffer holds exactly the labels
encoded before the offending one -- no length byte or partial bytes of the
too-long label. -/
theorem C6_label_length_boundary (buffer domain : List Nat) :
    ((∀ l ∈ splitOnDot domain, l.length ≤ 63) →
      pack_domain_name buffer domain =
        .ok (buffer ++ encLabels (splitOnDot domain) ++ [0])) ∧
    (∀ e, pack_domain_name buffer domain = .error e →
      (∃ l ∈ splitOnDot domain, 63 < l.length) ∧
      ∃ pre bad suf, splitOnDot domain = pre ++ bad :: suf ∧
        (∀ l ∈ pre, l.length ≤ 63) ∧ 63 < bad.length ∧
        e = buffer ++ encLabels pre) ∧
    ((∃ l ∈ splitOnDot domain, 63 < l.length) →
      ∃ e, pack_domain_name buffer domain = .error e) := by
  refine ⟨fun h => packLabels_ok _ _ h, fun e he => ?_,
    fun h => packLabels_error_of_long _ _ h⟩
  obtain ⟨pre, bad, suf, hsplit, hpre, hbad, hbuf⟩ :=
    packLabels_error_shape _ _ _ he
  exact ⟨⟨bad, by simp [hsplit], hbad⟩, pre, bad, suf, hsplit, hpre, hbad, hbuf⟩

/-- Witness for C6: a single 63-byte label packs fine; a 64-byte label
fails with the buffer left exactly as it was. -/
theorem C6_label_length_boundary_witness :
    pack_domain_name [5] (List.replicate 63 97) =
      .ok ([5] ++ encLabels (splitOnDot (List.replicate 63 97)) ++ [0]) ∧
    ∃ e, pack_domain_name [5] (List.replicate 64 97) = .error e :=
  ⟨(C6_label_length_boundary [5] (List.replicate 63 97)).1 (by decide),
   (C6_label_length_boundary [5] (List.replicate 64 97)).2.2 (by decide)⟩

/-! ## Claim C2 -/

theorem splitOnDot_ne_nil : ∀ d : List Nat, splitOnDot d ≠ [] := by
  intro d
  cases d with
  | nil => simp [splitOnDot]
  | cons c rest =>
    by_cases hc : c = 46
    · simp [splitOnDot, hc]
    · simp only [splitOnDot, if_neg hc]
      cases h : splitOnDot rest <;> simp

theorem joinDots_cons_head (c : Nat) (l : List Nat) :
    ∀ ls, joinDots ((c :: l) :: ls) = c :: joinDots (l :: ls) := by
  intro ls
  cases ls with
  | nil => simp [joinDots]
  | cons l' ls' => simp [joinDots]

theorem joinDots_splitOnDot : ∀ d : List Nat, joinDots (splitOnDot d) = d := by
  intro d
  induction d with
  | nil => simp [splitOnDot, joinDots]
  | cons c rest ih =>
    by_cases hc : c = 46
    · subst hc
      simp only [splitOnDot, if_pos rfl]
      cases h : splitOnDot rest with
      | nil => exact absurd h (splitOnDot_ne_nil rest)
      | cons r rs =>
        rw [h] at ih
        simp [joinDots, ih]
    · simp only [splitOnDot, if_neg hc]
      cases h : splitOnDot rest with
      | nil => exact absurd h (splitOnDot_ne_nil rest)
      | cons r rs =>
        rw [h] at ih
        rw [joinDots_cons_head, ih]

theorem not_isPointer_of_le (len : Nat) (h : len ≤ 63) : isPointer len = false := by
  have hle : len &&& 192 ≤ len := Nat.and_le_left
  simp only [isPointer, beq_eq_false_iff_ne]
  omega

theorem unpackAux_enc :
    ∀ (ls : List (List Nat)) (fuel : Nat) (A rest : List Nat)
      (acc : List (List Nat)) (jp : Nat),
      (∀ l ∈ ls, 0 < l.length ∧ l.length ≤ 63) → ls.length < fuel →
      unpackAux (A ++ (encLabels ls ++ 0 :: rest)) fuel A.length false jp acc =
        some (acc ++ ls, A.length + (encLabels ls).length + 1) := by
  intro ls
  induction ls with
  | nil =>
    intro fuel A rest acc jp _ hfuel
    obtain ⟨f, rfl⟩ : ∃ f, fuel = f + 1 := ⟨fuel - 1, by omega⟩
    have h0 : (A ++ (encLabels [] ++ 0 :: rest))[A.length]? = some 0 := by
      rw [List.getElem?_append_right (le_refl _)]
      simp [encLabels]
    simp only [unpackAux]
    rw [h0]
    simp [isPointer, encLabels]
  | cons l ls ih =>
    intro fuel A rest acc jp hlab hfuel
    obtain ⟨f, rfl⟩ : ∃ f, fuel = f + 1 := ⟨fuel - 1, by omega⟩
    obtain ⟨hpos, hle⟩ := hlab l (by simp)
    have hrest : ∀ x ∈ ls, 0 < x.length ∧ x.length ≤ 63 :=
      fun x hx => hlab x (by simp [hx])
    -- the buffer, re-associated around the first encoded label
    have hbuf : A ++ (encLabels (l :: ls) ++ 0 :: rest) =
        (A ++ encLabel l) ++ (encLabels ls ++ 0 :: rest) := by
      simp [encLabels, encLabel, List.append_assoc]
    have h0 : (A ++ (encLabels (l :: ls) ++ 0 :: rest))[A.length]? =
        some l.length := by
      rw [List.getElem?_append_right (le_refl _)]
      simp [encLabels, encLabel]
    have hslice : readSlice (A ++ (encLabels (l :: ls) ++ 0 :: rest))
        (A.length + 1) l.length = some l := by
      unfold readSlice
      have hdrop : (A ++ (encLabels (l :: ls) ++ 0 :: rest)).drop (A.length + 1) =
          l ++ (encLabels ls ++ 0 :: rest) := by
        have : A ++ (encLabels (l :: ls) ++ 0 :: rest) =
            (A ++ [l.length]) ++ (l ++ (encLabels ls ++ 0 :: rest)) := by
          simp [encLabels, encLabel, List.append_assoc]
        rw [this]
        have hlen : (A ++ [l.length]).length = A.length + 1 := by simp
        rw [← hlen, List.drop_left]
      rw [if_pos, hdrop, List.take_left]
      simp [encLabels, encLabel]
      omega
    have hnp : isPointer l.length = false := not_isPointer_of_le _ hle
    simp only [unpackAux, h0, hnp, Bool.false_eq_true, if_false,
      if_neg (by omega : ¬ l.length = 0), hslice]
    have ihx := ih f (A ++ encLabel l) rest (acc ++ [l]) jp hrest (by
      simp at hfuel ⊢; omega)
    rw [hbuf]
    have hlen2 : (A ++ encLabel l).length = A.length + 1 + l.length := by
      simp [encLabel]; omega
    rw [hlen2] at ihx
    rw [ihx]
    simp [encLabels, encLabel, List.append_assoc]
    omega

/-- Counterexample to C2 as stated: the domain `"a."` (bytes `[97, 46]`)
consists of labels `"a"` and `""`, each at most 63 bytes, yet the encoded
buffer `[1, 97, 0, 0]` decodes back to just `"a"` (the empty label packs as
a zero byte, which terminates the name early) with the cursor at 3, not at
the buffer length 4. -/
theorem C2_roundtrip_counterexample :
    (∀ l ∈ splitOnDot [97, 46], l.length ≤ 63) ∧
    pack_domain_name [] [97, 46] = .ok [1, 97, 0, 0] ∧
    unpack_domain_name 8 [1, 97, 0, 0] 0 = some ([[97]], 3) ∧
    joinDots [[97]] ≠ [97, 46] ∧ (3 : Nat) ≠ [1, 97, 0, 0].length :=
  ⟨by decide, rfl, by decide, by decide, by decide⟩

/-- Claim C2 (amended: labels must also be nonempty): packing a domain name
whose dot-separated labels are all nonempty and at most 63 bytes into an
empty buffer succeeds, and decoding that buffer from position 0 returns
exactly the original labels -- whose dot-join is the original name -- with
the cursor at the byte after the terminating zero, i.e. the buffer
length. -/
theorem C2_roundtrip_amended (domain : List Nat)
    (hlab : ∀ l ∈ splitOnDot domain, 0 < l.length ∧ l.length ≤ 63) :
    ∃ out, pack_domain_name [] domain = .ok out ∧
      ∀ fuel, (splitOnDot domain).length < fuel →
        unpack_domain_name fuel out 0 = some (splitOnDot domain, out.length) ∧
        joinDots (splitOnDot domain) = domain := by
  refine ⟨encLabels (splitOnDot domain) ++ [0], ?_, ?_⟩
  · have := packLabels_ok (splitOnDot domain) []
      (fun l hl => (hlab l hl).2)
    simpa using this
  · intro fuel hfuel
    refine ⟨?_, joinDots_splitOnDot domain⟩
    have := unpackAux_enc (splitOnDot domain) fuel [] [] [] 0 hlab hfuel
    simpa [unpack_domain_name, encLabels] using this

/-- Witness for C2 (amended) at the domain `"www.google.com"`. -/
theorem C2_roundtrip_amended_witness :
    ∃ out, pack_domain_name []
        [119, 119, 119, 46, 103, 111, 111, 103, 108, 101, 46, 99, 111, 109] =
        .ok out ∧
      ∀ fuel,
        (splitOnDot
          [119, 119, 119, 46, 103, 111, 111, 103, 108, 101, 46, 99, 111, 109]).length < fuel →
        unpack_domain_name fuel out 0 =
          some (splitOnDot
            [119, 119, 119, 46, 103, 111, 111, 103, 108, 101, 46, 99, 111, 109],
            out.length) ∧
        joinDots (splitOnDot
          [119, 119, 119, 46, 103, 111, 111, 103, 108, 101, 46, 99, 111, 109]) =
          [119, 119, 119, 46, 103, 111, 111, 103, 108, 101, 46, 99, 111, 109] :=
  C2_roundtrip_amended
    [119, 119, 119, 46, 103, 111, 111, 103, 108, 101, 46, 99, 111, 109]
    (by decide)

theorem tryFrom_none_iff (v : Nat) :
    QueryType.tryFrom v = none ↔ v ∉ ([1, 28, 5, 15, 16] : List Nat) := by
  constructor
  · intro h hv
    simp only [List.mem_cons, List.not_mem_nil, or_false] at hv
    rcases hv with rfl | rfl | rfl | rfl | rfl <;> simp [QueryType.tryFrom] at h
  · intro h
    simp only [List.mem_cons, List.not_mem_nil, or_false, not_or] at h
    unfold QueryType.tryFrom
    split <;> simp_all

theorem readU16_total {buf : List Nat} {p : Nat} (h : p + 2 ≤ buf.length) :
    ∃ v, readU16 buf p = some (v, p + 2) := by
  have h0 : buf[p]? = some buf[p] := List.getElem?_eq_getElem (by omega)
  have h1 : buf[p+1]? = some buf[p+1] := List.getElem?_eq_getElem (by omega)
  exact ⟨_, by rw [readU16, h0, h1]⟩

/-- Claim C7: once the domain name decodes and the 16-bit type code is read
with two more bytes remaining, `DnsQuestion::from_bytes` fails exactly when
the type code is outside the closed query-type enum {1, 28, 5, 15, 16}; for
a code inside it, decoding reads the class and succeeds. -/
theorem C7_question_unknown_type_fatal (fuel : Nat) (buf : List Nat)
    (pos : Nat) (parts : List (List Nat)) (p1 tv p2 : Nat)
    (hname : unpack_domain_name fuel buf pos = some (parts, p1))
    (ht : readU16 buf p1 = some (tv, p2))
    (hroom : p2 + 2 ≤ buf.length) :
    (DnsQuestion.from_bytes fuel buf pos = none ↔
      tv ∉ ([1, 28, 5, 15, 16] : List Nat)) ∧
    (∀ qt, QueryType.tryFrom tv = some qt →
      ∃ cv, readU16 buf p2 = some (cv, p2 + 2) ∧
        DnsQuestion.from_bytes fuel buf pos =
          some (⟨joinDots parts, qt, cv⟩, p2 + 2)) := by
  obtain ⟨cv, hcv⟩ := readU16_total hroom
  simp only [DnsQuestion.from_bytes, hname, ht, Option.bind_eq_bind,
    Option.some_bind]
  constructor
  · cases htf : QueryType.tryFrom tv with
    | none =>
      simp only [Option.none_bind]
      exact ⟨fun _ => (tryFrom_none_iff tv).mp htf, fun _ => trivial⟩
    | some qt =>
      simp only [Option.some_bind, hcv]
      constructor
      · intro hcontra
        exact Option.noConfusion hcontra
      · intro hnot
        exact absurd ((tryFrom_none_iff tv).mpr hnot) (by simp [htf])
        
  · intro qt hqt
    refine ⟨cv, hcv, ?_⟩
    simp [hqt, hcv]

theorem readRData_known_not_other {fuel : Nat} {buf : List Nat}
    {tv p5 dl : Nat} {qt : QueryType} {d : RData}
    (hqt : QueryType.tryFrom tv = some qt)
    (hd : readRData fuel buf tv p5 dl = some d) :
    ∀ tc bs, d ≠ RData.Other tc bs := by
  intro tc bs
  simp only [readRData, hqt] at hd
  cases qt with
  | A =>
    cases hs : readSlice buf p5 4 <;> rw [hs] at hd <;> simp at hd
    simp [← hd]
  | AAAA =>
    cases hs : readSlice buf p5 16 <;> rw [hs] at hd <;> simp at hd
    simp [← hd]
  | CNAME =>
    cases hs : unpack_domain_name fuel buf p5 with
    | none => rw [hs] at hd; exact Option.noConfusion hd
    | some r =>
      obtain ⟨cs, q⟩ := r
      rw [hs] at hd
      simp only [Option.some.injEq] at hd
      simp [← hd]
  | MX =>
    dsimp only at hd
    cases hs : readU16 buf p5 with
    | none => rw [hs] at hd; exact Option.noConfusion hd
    | some r =>
      obtain ⟨pref, q1⟩ := r
      rw [hs] at hd
      dsimp only at hd
      cases hu : unpack_domain_name fuel buf q1 with
      | none => rw [hu] at hd; exact Option.noConfusion hd
      | some r2 =>
        obtain ⟨es, q2⟩ := r2
        rw [hu] at hd
        dsimp only at hd
        simp only [Option.some.injEq] at hd
        simp [← hd]
  | TXT =>
    cases hs : txtChunks buf (p5 + dl) p5 <;> rw [hs] at hd <;> simp at hd
    simp [← hd]

/-- Claim C9: whenever `ResourceRecord::from_bytes` succeeds with a payload
of the raw-fallback variant `RData::Other` (i.e. the numeric type code was
unrecognized), the record's `rtype` display tag is `QueryType::A`. -/
theorem C9_unknown_type_rtype_fallback (fuel : Nat) (buf : List Nat)
    (pos : Nat) (rr : ResourceRecord) (fin : Nat)
    (h : ResourceRecord.from_bytes fuel buf pos = some (rr, fin)) :
    ∀ tc bs, rr.data = RData.Other tc bs → rr.rtype = QueryType.A := by
  intro tc bs hdata
  simp only [ResourceRecord.from_bytes, Option.bind_eq_bind,
    Option.bind_eq_some] at h
  obtain ⟨⟨parts, p1⟩, e1, ⟨tv, p2⟩, e2, ⟨cv, p3⟩, e3, ⟨ttl, p4⟩, e4,
    ⟨dl, p5⟩, e5, d, ed, hfin⟩ := h
  simp only [Option.some.injEq, Prod.mk.injEq] at hfin
  obtain ⟨rfl, -⟩ : rr = _ ∧ fin = p5 + dl := ⟨hfin.1.symm, hfin.2.symm⟩
  cases htf : QueryType.tryFrom tv with
  | none => simp [htf]
  | some qt =>
    exact absurd hdata (readRData_known_not_other htf ed tc bs)

/-- Witness for C7: type code 99 is outside the enum, so question decode
fails on an otherwise well-formed buffer. -/
theorem C7_question_unknown_type_fatal_witness :
    DnsQuestion.from_bytes 4 [1, 97, 0, 0, 99, 0, 1] 0 = none :=
  (C7_question_unknown_type_fatal 4 [1, 97, 0, 0, 99, 0, 1] 0 [[97]] 3 99 5
    (by decide) (by decide) (by decide)).1.mpr (by decide)

/-- Witness for C9: a record of unrecognized type 99 decodes with payload
`RData.Other` and display type tag `QueryType.A`. -/
theorem C9_unknown_type_rtype_fallback_witness :
    (⟨[], QueryType.A, 1, 5, RData.Other 99 [9, 8, 7]⟩ :
      ResourceRecord).rtype = QueryType.A :=
  C9_unknown_type_rtype_fallback 4 [0, 0, 99, 0, 1, 0, 0, 0, 5, 0, 3, 9, 8, 7]
    0 ⟨[], QueryType.A, 1, 5, RData.Other 99 [9, 8, 7]⟩ 14 (by decide)
    99 [9, 8, 7] (by decide)

/-- Claim C10: for a type-1 (A) record, the per-type branch reads exactly 4
bytes after the RDLENGTH field without comparing the declared length to 4:
whenever at least 4 bytes remain, decoding succeeds with the address built
from those 4 bytes for any declared `dl` whatsoever, and the final cursor is
`p5 + dl` (position after RDLENGTH plus declared length), not `p5 + 4`. -/
theorem C10_a_record_ignores_rdlength (fuel : Nat) (buf : List Nat)
    (pos : Nat) (parts : List (List Nat)) (p1 p2 cv p3 ttl p4 dl p5 : Nat)
    (hname : unpack_domain_name fuel buf pos = some (parts, p1))
    (ht : readU16 buf p1 = some (1, p2))
    (hc : readU16 buf p2 = some (cv, p3))
    (httl : readU32 buf p3 = some (ttl, p4))
    (hdl : readU16 buf p4 = some (dl, p5))
    (hroom : p5 + 4 ≤ buf.length) :
    ResourceRecord.from_bytes fuel buf pos =
      some (⟨joinDots parts, QueryType.A, cv, ttl,
             RData.A ((buf.drop p5).take 4)⟩, p5 + dl) := by
  simp only [ResourceRecord.from_bytes, hname, ht, hc, httl, hdl,
    Option.bind_eq_bind, Option.some_bind]
  simp [readRData, QueryType.tryFrom, readSlice, hroom]

/-- Witness for C10: an A record whose declared RDATA length is 2 (not 4)
still decodes, takes its address from the 4 bytes after RDLENGTH, and the
cursor lands at `p5 + 2 = 13`, before the address bytes it consumed. -/
theorem C10_a_record_ignores_rdlength_witness :
    ResourceRecord.from_bytes 4 [0, 0, 1, 0, 1, 0, 0, 0, 60, 0, 2, 9, 9, 9, 9]
      0 = some (⟨[], QueryType.A, 1, 60, RData.A [9, 9, 9, 9]⟩, 13) :=
  C10_a_record_ignores_rdlength 4 [0, 0, 1, 0, 1, 0, 0, 0, 60, 0, 2, 9, 9, 9, 9]
    0 [] 1 3 1 5 60 9 2 11 (by decide) (by decide) (by decide) (by decide)
    (by decide) (by decide)

/-- Claim C4: a record whose type code is outside {1, 28, 5, 15, 16} and
whose declared RDATA length fits in the buffer always decodes into
`RData.Other` carrying the original code and exactly those bytes; and every
successful record decode, of any type, ends with the cursor at the RDATA
end offset `p5 + dl`. -/
theorem C4_unknown_type_tolerance (fuel : Nat) (buf : List Nat) (pos : Nat)
    (parts : List (List Nat)) (p1 tv p2 cv p3 ttl p4 dl p5 : Nat)
    (hname : unpack_domain_name fuel buf pos = some (parts, p1))
    (ht : readU16 buf p1 = some (tv, p2))
    (hc : readU16 buf p2 = some (cv, p3))
    (httl : readU32 buf p3 = some (ttl, p4))
    (hdl : readU16 buf p4 = some (dl, p5)) :
    (tv ∉ ([1, 28, 5, 15, 16] : List Nat) → p5 + dl ≤ buf.length →
      ResourceRecord.from_bytes fuel buf pos =
        some (⟨joinDots parts, QueryType.A, cv, ttl,
               RData.Other tv ((buf.drop p5).take dl)⟩, p5 + dl)) ∧
    (∀ rr fin, ResourceRecord.from_bytes fuel buf pos = some (rr, fin) →
      fin = p5 + dl) := by
  constructor
  · intro htv hroom
    have htf : QueryType.tryFrom tv = none := (tryFrom_none_iff tv).mpr htv
    simp only [ResourceRecord.from_bytes, hname, ht, hc, httl, hdl,
      Option.bind_eq_bind, Option.some_bind]
    simp [readRData, htf, readSlice, hroom]
  · intro rr fin h
    simp only [ResourceRecord.from_bytes, hname, ht, hc, httl, hdl,
      Option.bind_eq_bind, Option.some_bind] at h
    cases hr : readRData fuel buf tv p5 dl with
    | none => rw [hr] at h; exact Option.noConfusion h
    | some d =>
      rw [hr] at h
      simp only [Option.some_bind, Option.some.injEq, Prod.mk.injEq] at h
      exact h.2.symm

/-- Witness for C4: type code 99 with a 3-byte RDATA decodes to
`RData.Other 99 [9, 8, 7]` with the cursor at the RDATA end offset 14. -/
theorem C4_unknown_type_tolerance_witness :
    ResourceRecord.from_bytes 4 [0, 0, 99, 0, 1, 0, 0, 0, 5, 0, 3, 9, 8, 7] 0 =
      some (⟨[], QueryType.A, 1, 5, RData.Other 99 [9, 8, 7]⟩, 14) :=
  (C4_unknown_type_tolerance 4 [0, 0, 99, 0, 1, 0, 0, 0, 5, 0, 3, 9, 8, 7] 0
    [] 1 99 3 1 5 5 9 3 11 (by decide) (by decide) (by decide) (by decide)
    (by decide)).1 (by decide) (by decide)

/-! ## Claim C3 -/

theorem getElem?_append_mono {buf : List Nat} {pos b : Nat} (ex : List Nat)
    (h : buf[pos]? = some b) : (buf ++ ex)[pos]? = some b := by
  rw [List.getElem?_append_left (getElem?_some_lt h)]
  exact h

theorem readSlice_mono {buf : List Nat} {pos n : Nat} {r : List Nat}
    (ex : List Nat) (h : readSlice buf pos n = some r) :
    readSlice (buf ++ ex) pos n = some r := by
  unfold readSlice at h ⊢
  by_cases hle : pos + n ≤ buf.length
  · rw [if_pos hle] at h
    rw [if_pos (by simp; omega)]
    rw [List.drop_append_of_le_length (by omega),
      List.take_append_of_le_length (by simp; omega)]
    exact h
  · rw [if_neg hle] at h
    exact Option.noConfusion h

theorem readU16_mono {buf : List Nat} {pos : Nat} {r : Nat × Nat}
    (ex : List Nat) (h : readU16 buf pos = some r) :
    readU16 (buf ++ ex) pos = some r := by
  unfold readU16 at h ⊢
  cases h0 : buf[pos]? <;> rw [h0] at h
  · exact Option.noConfusion h
  cases h1 : buf[pos+1]? <;> rw [h1] at h
  · exact Option.noConfusion h
  rw [getElem?_append_mono ex h0, getElem?_append_mono ex h1]
  exact h

theorem readU32_mono {buf : List Nat} {pos : Nat} {r : Nat × Nat}
    (ex : List Nat) (h : readU32 buf pos = some r) :
    readU32 (buf ++ ex) pos = some r := by
  unfold readU32 at h ⊢
  cases h0 : buf[pos]? <;> rw [h0] at h
  · exact Option.noConfusion h
  cases h1 : buf[pos+1]? <;> rw [h1] at h
  · exact Option.noConfusion h
  cases h2 : buf[pos+2]? <;> rw [h2] at h
  · exact Option.noConfusion h
  cases h3 : buf[pos+3]? <;> rw [h3] at h
  · exact Option.noConfusion h
  rw [getElem?_append_mono ex h0, getElem?_append_mono ex h1,
    getElem?_append_mono ex h2, getElem?_append_mono ex h3]
  exact h

theorem unpackAux_mono {buf : List Nat} (ex : List Nat) :
    ∀ (fuel pos : Nat) (j : Bool) (jp : Nat) (acc : List (List Nat))
      (r : List (List Nat) × Nat),
      unpackAux buf fuel pos j jp acc = some r →
      unpackAux (buf ++ ex) fuel pos j jp acc = some r := by
  intro fuel
  induction fuel with
  | zero => intro pos j jp acc r h; simp [unpackAux] at h
  | succ f ih =>
    intro pos j jp acc r h
    simp only [unpackAux] at h ⊢
    cases h0 : buf[pos]? <;> rw [h0] at h
    · exact Option.noConfusion h
    rename_i len
    rw [getElem?_append_mono ex h0]
    by_cases hp : isPointer len
    · simp only [hp, if_true] at h ⊢
      cases h1 : buf[pos+1]? <;> rw [h1] at h
      · exact Option.noConfusion h
      rw [getElem?_append_mono ex h1]
      exact ih _ _ _ _ _ h
    · simp only [hp, Bool.false_eq_true, if_false] at h ⊢
      by_cases hz : len = 0
      · simp only [hz, if_pos rfl] at h ⊢
        exact h
      · simp only [if_neg hz] at h ⊢
        cases h2 : readSlice buf (pos+1) len <;> rw [h2] at h
        · exact Option.noConfusion h
        rw [readSlice_mono ex h2]
        exact ih _ _ _ _ _ h

theorem txtChunks_mono (ex : List Nat) :
    ∀ (k : Nat) (buf : List Nat) (dataEnd pos : Nat) (r : List Nat),
      dataEnd ≤ pos + k → txtChunks buf dataEnd pos = some r →
      txtChunks (buf ++ ex) dataEnd pos = some r := by
  intro k
  induction k with
  | zero =>
    intro buf dataEnd pos r hk h
    rw [txtChunks] at h ⊢
    rw [dif_neg (by omega)] at h ⊢
    exact h
  | succ k ih =>
    intro buf dataEnd pos r hk h
    rw [txtChunks] at h ⊢
    by_cases hlt : pos < dataEnd
    · rw [dif_pos hlt] at h ⊢
      cases h0 : buf[pos]? <;> rw [h0] at h
      · exact Option.noConfusion h
      rename_i len
      rw [getElem?_append_mono ex h0]
      dsimp only at h ⊢
      cases h1 : readSlice buf (pos+1) len <;> rw [h1] at h
      · exact Option.noConfusion h
      rw [readSlice_mono ex h1]
      dsimp only at h ⊢
      cases h2 : txtChunks buf dataEnd (pos + 1 + len) <;> rw [h2] at h
      · exact Option.noConfusion h
      rw [ih buf dataEnd (pos + 1 + len) _ (by omega) h2]
      exact h
    · rw [dif_neg hlt] at h ⊢
      exact h

theorem header_from_bytes_mono {buf : List Nat} {pos : Nat}
    {r : DnsHeader × Nat} (ex : List Nat)
    (h : DnsHeader.from_bytes buf pos = some r) :
    DnsHeader.from_bytes (buf ++ ex) pos = some r := by
  simp only [DnsHeader.from_bytes, Option.bind_eq_bind, Option.bind_eq_some]
    at h ⊢
  obtain ⟨a1, e1, a2, e2, a3, e3, a4, e4, a5, e5, a6, e6, hfin⟩ := h
  exact ⟨a1, readU16_mono ex e1, a2, readU16_mono ex e2, a3,
    readU16_mono ex e3, a4, readU16_mono ex e4, a5, readU16_mono ex e5,
    a6, readU16_mono ex e6, hfin⟩

theorem unpack_domain_name_mono {fuel : Nat} {buf : List Nat} {pos : Nat}
    {r : List (List Nat) × Nat} (ex : List Nat)
    (h : unpack_domain_name fuel buf pos = some r) :
    unpack_domain_name fuel (buf ++ ex) pos = some r :=
  unpackAux_mono ex fuel pos false 0 [] r h

theorem question_from_bytes_mono {fuel : Nat} {buf : List Nat} {pos : Nat}
    {r : DnsQuestion × Nat} (ex : List Nat)
    (h : DnsQuestion.from_bytes fuel buf pos = some r) :
    DnsQuestion.from_bytes fuel (buf ++ ex) pos = some r := by
  simp only [DnsQuestion.from_bytes, Option.bind_eq_bind, Option.bind_eq_some]
    at h ⊢
  obtain ⟨a1, e1, a2, e2, qt, eq, a3, e3, hfin⟩ := h
  exact ⟨a1, unpack_domain_name_mono ex e1, a2, readU16_mono ex e2, qt, eq,
    a3, readU16_mono ex e3, hfin⟩

theorem readRData_mono {fuel : Nat} {buf : List Nat} {tv p5 dl : Nat}
    {d : RData} (ex : List Nat)
    (h : readRData fuel buf tv p5 dl = some d) :
    readRData fuel (buf ++ ex) tv p5 dl = some d := by
  unfold readRData at h ⊢
  cases htf : QueryType.tryFrom tv <;> rw [htf] at h
  · cases hs : readSlice buf p5 dl <;> rw [hs] at h
    · exact Option.noConfusion h
    rw [readSlice_mono ex hs]
    exact h
  rename_i qt
  cases qt
  all_goals dsimp only at h ⊢
  · -- A
    cases hs : readSlice buf p5 4 <;> rw [hs] at h
    · exact Option.noConfusion h
    rw [readSlice_mono ex hs]
    exact h
  · -- AAAA
    cases hs : readSlice buf p5 16 <;> rw [hs] at h
    · exact Option.noConfusion h
    rw [readSlice_mono ex hs]
    exact h
  · -- CNAME
    cases hs : unpack_domain_name fuel buf p5 <;> rw [hs] at h
    · exact Option.noConfusion h
    rw [unpack_domain_name_mono ex hs]
    rename_i r
    obtain ⟨cs, q⟩ := r
    exact h
  · -- MX
    cases hs : readU16 buf p5 <;> rw [hs] at h
    · exact Option.noConfusion h
    rw [readU16_mono ex hs]
    rename_i r
    obtain ⟨pref, q1⟩ := r
    dsimp only at h ⊢
    cases hu : unpack_domain_name fuel buf q1 <;> rw [hu] at h
    · exact Option.noConfusion h
    rw [unpack_domain_name_mono ex hu]
    rename_i r2
    obtain ⟨es, q2⟩ := r2
    exact h
  · -- TXT
    cases hs : txtChunks buf (p5 + dl) p5 <;> rw [hs] at h
    · exact Option.noConfusion h
    rw [txtChunks_mono ex (p5 + dl) buf (p5 + dl) p5 _ (by omega) hs]
    exact h

theorem record_from_bytes_mono {fuel : Nat} {buf : List Nat} {pos : Nat}
    {r : ResourceRecord × Nat} (ex : List Nat)
    (h : ResourceRecord.from_bytes fuel buf pos = some r) :
    ResourceRecord.from_bytes fuel (buf ++ ex) pos = some r := by
  simp only [ResourceRecord.from_bytes, Option.bind_eq_bind,
    Option.bind_eq_some] at h ⊢
  obtain ⟨a1, e1, a2, e2, a3, e3, a4, e4, a5, e5, d, ed, hfin⟩ := h
  exact ⟨a1, unpack_domain_name_mono ex e1, a2, readU16_mono ex e2, a3,
    readU16_mono ex e3, a4, readU32_mono ex e4, a5, readU16_mono ex e5,
    d, readRData_mono ex ed, hfin⟩

theorem parseN_mono {α : Type} {step step' : Nat → Option (α × Nat)}
    (hstep : ∀ pos r, step pos = some r → step' pos = some r) :
    ∀ (n pos : Nat) (r : List α × Nat),
      parseN step n pos = some r → parseN step' n pos = some r := by
  intro n
  induction n with
  | zero => intro pos r h; exact h
  | succ n ih =>
    intro pos r h
    simp only [parseN, Option.bind_eq_bind, Option.bind_eq_some] at h ⊢
    obtain ⟨a1, e1, a2, e2, hfin⟩ := h
    exact ⟨a1, hstep _ _ e1, a2, ih _ _ e2, hfin⟩

theorem parseN_length {α : Type} {step : Nat → Option (α × Nat)} :
    ∀ (n pos : Nat) (as : List α) (p : Nat),
      parseN step n pos = some (as, p) → as.length = n := by
  intro n
  induction n with
  | zero =>
    intro pos as p h
    simp only [parseN, Option.some.injEq, Prod.mk.injEq] at h
    simp [← h.1]
  | succ n ih =>
    intro pos as p h
    simp only [parseN, Option.bind_eq_bind, Option.bind_eq_some] at h
    obtain ⟨⟨a, p1⟩, e1, ⟨rest, p2⟩, e2, hfin⟩ := h
    simp only [Option.some.injEq, Prod.mk.injEq] at hfin
    rw [← hfin.1]
    simp [ih _ _ _ e2]

/-- Claim C3: a successful `DnsMessage::from_bytes` yields exactly
`question_count` questions, `answer_count` answers, `authority_count`
authority records and `additional_count` additional records (the lengths
are produced from the header counts), and any bytes beyond the last
declared record are ignored: decoding the buffer with any trailing bytes
appended succeeds with the identical message. -/
theorem C3_section_counts_and_trailing_bytes (fuel : Nat) (buf : List Nat)
    (m : DnsMessage) (h : DnsMessage.from_bytes fuel buf = some m) :
    (m.questions.length = m.header.question_count ∧
     m.answers.length = m.header.answer_count ∧
     m.authorities.length = m.header.authority_count ∧
     m.additionals.length = m.header.additional_count) ∧
    ∀ extra : List Nat, DnsMessage.from_bytes fuel (buf ++ extra) = some m := by
  simp only [DnsMessage.from_bytes, Option.bind_eq_bind, Option.bind_eq_some]
    at h
  obtain ⟨⟨header, p0⟩, e0, ⟨qs, p1⟩, e1, ⟨ans, p2⟩, e2, ⟨auth, p3⟩, e3,
    ⟨add, p4⟩, e4, hfin⟩ := h
  have hm := Option.some.inj hfin
  constructor
  · rw [← hm]
    exact ⟨parseN_length _ _ _ _ e1, parseN_length _ _ _ _ e2,
      parseN_length _ _ _ _ e3, parseN_length _ _ _ _ e4⟩
  · intro extra
    simp only [DnsMessage.from_bytes, Option.bind_eq_bind, Option.bind_eq_some]
    exact ⟨(header, p0), header_from_bytes_mono extra e0, (qs, p1),
      parseN_mono (fun pos r => question_from_bytes_mono extra) _ _ _ e1,
      (ans, p2),
      parseN_mono (fun pos r => record_from_bytes_mono extra) _ _ _ e2,
      (auth, p3),
      parseN_mono (fun pos r => record_from_bytes_mono extra) _ _ _ e3,
      (add, p4),
      parseN_mono (fun pos r => record_from_bytes_mono extra) _ _ _ e4,
      hfin⟩

/-- A complete one-question, one-answer response buffer: header with counts
(1, 1, 0, 0), question `a` type A class IN, answer named via a compression
pointer to offset 12, type A, TTL 60, RDATA the address 1.2.3.4. -/
def msgBuf : List Nat :=
  [18, 52, 129, 128, 0, 1, 0, 1, 0, 0, 0, 0] ++
  [1, 97, 0, 0, 1, 0, 1] ++
  [192, 12, 0, 1, 0, 1, 0, 0, 0, 60, 0, 4, 1, 2, 3, 4]

/-- The message `msgBuf` decodes to. -/
def msgVal : DnsMessage :=
  ⟨⟨4660, 33152, 1, 1, 0, 0⟩,
   [⟨[97], QueryType.A, 1⟩],
   [⟨[97], QueryType.A, 1, 60, RData.A [1, 2, 3, 4]⟩],
   [], []⟩

/-- Witness for C3 on `msgBuf`: the decoded section lengths match the header
counts, and appending two trailing garbage bytes leaves the decode
unchanged. -/
theorem C3_section_counts_and_trailing_bytes_witness :
    (msgVal.questions.length = msgVal.header.question_count ∧
     msgVal.answers.length = msgVal.header.answer_count) ∧
    DnsMessage.from_bytes 8 (msgBuf ++ [255, 255]) = some msgVal :=
  have h := C3_section_counts_and_trailing_bytes 8 msgBuf msgVal (by decide)
  ⟨⟨h.1.1, h.1.2.1⟩, h.2 [255, 255]⟩

end DnsResolver
